import Mathlib

/-!
# Verification of the CatchmentNet HTML → Markdown conversion engine

This file is a shallow embedding, in Lean 4, of `src/markdownHelper.ts`:
the pure HTML-to-Markdown conversion engine of the repository.  Strings are
modelled as `List Char` (type `Str`), the parsed DOM as a tree of tagged
nodes, and every function of the source file is translated one-for-one:

* `cleanMarkdown`  — the five global regex replacements plus the final trim,
  each regex rendered as an equivalent left-to-right scanning state machine
  (JavaScript's `String.replace` with `/g` scans left to right, greedy with
  backtracking; the state machines below reproduce exactly that behaviour);
* `handleEmphasisFormatting` — the emphasis sanitizer;
* `processImage`, `processFigure`, `processCaptionedImageContainer`;
* `processInlineElementsSimple` — the recursive inline formatter;
* `extractContentInOrder` — candidate selection, the descendant filter and
  the per-block dispatch;
* the header extraction and `convertHtmltoMarkdown` orchestration.

JavaScript whitespace (`\s`) is modelled by its ASCII subset, which covers
every character class the source manipulates.
-/

/-- Strings are modelled as lists of characters. -/
abbrev Str := List Char

/-- Coerce a Lean string literal to the `Str` model. -/
def str (s : String) : Str := s.data

/-- The ASCII part of JavaScript's `\s` character class. -/
def isWs (c : Char) : Bool :=
  c = ' ' || c = '\t' || c = '\n' || c = '\r' || c = '\x0b' || c = '\x0c'

/-- The punctuation class `[,.!?;:]` of `cleanMarkdown`'s second rule. -/
def isPunctC (c : Char) : Bool :=
  c = ',' || c = '.' || c = '!' || c = '?' || c = ';' || c = ':'

/-- The punctuation/dash class `[.,!?;:\-—–]` of `handleEmphasisFormatting`. -/
def isPunctE (c : Char) : Bool :=
  c = '.' || c = ',' || c = '!' || c = '?' || c = ';' || c = ':' ||
  c = '-' || c = '—' || c = '–'

/-- The list bullet class `[-*+]` of `cleanMarkdown`'s fifth rule. -/
def isBullet (c : Char) : Bool :=
  c = '-' || c = '*' || c = '+'

/-- JavaScript `String.prototype.trim`: drop whitespace from both ends. -/
def trimWs (s : Str) : Str :=
  ((s.dropWhile isWs).reverse.dropWhile isWs).reverse

/-- Rule 1 of `cleanMarkdown`, `.replace(/\n{3,}/g, '\n\n')`: every maximal
run of three or more newlines is collapsed to exactly two.  `k` counts the
newlines of the run currently being read. -/
def r1go : Nat → Str → Str
  | k, [] => List.replicate (min k 2) '\n'
  | k, c :: rest =>
    if c = '\n' then r1go (k + 1) rest
    else List.replicate (min k 2) '\n' ++ c :: r1go 0 rest

/-- Rule 2 of `cleanMarkdown`, `.replace(/\s+([,.!?;:])/g, '$1')`: a maximal
whitespace run immediately followed by a punctuation character is deleted.
`pend` holds the whitespace run read so far, reversed. -/
def r2go : Str → Str → Str
  | pend, [] => pend.reverse
  | pend, c :: rest =>
    if isWs c then r2go (c :: pend) rest
    else if isPunctC c then c :: r2go [] rest
    else pend.reverse ++ c :: r2go [] rest

/-- Rule 3 of `cleanMarkdown`, `.replace(/[ \t]+$/gm, '')`: spaces and tabs
standing directly before a newline or the end of the string are deleted.
`pend` holds the space/tab run read so far, reversed. -/
def r3go : Str → Str → Str
  | _, [] => []
  | pend, c :: rest =>
    if c = ' ' || c = '\t' then r3go (c :: pend) rest
    else if c = '\n' then '\n' :: r3go [] rest
    else pend.reverse ++ c :: r3go [] rest

/-- Rule 4 of `cleanMarkdown`, `.replace(/^>\s*$/gm, '>')`.  At a line start,
a `>` followed by a whitespace run is replaced by a bare `>` up to the
position where `$` can match (the end of the string, or — backtracking the
greedy `\s*` — the last newline inside the run); scanning resumes there.
The first argument is `some r` (run `r`, reversed) while inside a potential
match, `none` otherwise; the `Bool` says whether the scan is at a line
start. -/
def r4go : Option Str → Bool → Str → Str
  | none, _, [] => []
  | some _, _, [] => ['>']
  | none, ls, c :: rest =>
    if ls && c = '>' then r4go (some []) false rest
    else c :: r4go none (c = '\n') rest
  | some r, _, c :: rest =>
    if isWs c then r4go (some (c :: r)) false rest
    else
      let post := r.takeWhile (fun x => x != '\n')
      if post.length = r.length then
        '>' :: r.reverse ++ c :: r4go none (c = '\n') rest
      else
        '>' :: '\n' :: post.reverse ++
          (if post.isEmpty && c = '>' then r4go (some []) false rest
           else c :: r4go none (c = '\n') rest)

/-- Scanner state for rule 5 of `cleanMarkdown`. -/
inductive R5State where
  /-- ordinary scanning; the flag records whether the position is a line start. -/
  | scan : Bool → R5State
  /-- reading the `\s*` run `a` (reversed) that opened at a line start. -/
  | collA : Str → R5State
  /-- read run `a`, bullet `b`, now reading the following run `d` (reversed). -/
  | collD : Str → Char → Str → R5State

/-- Rule 5 of `cleanMarkdown`, `.replace(/^(\s*[-*+]\s*)\s+/gm, '$1')`.
At a line start, after an optional whitespace run and a bullet, a non-empty
whitespace run loses exactly its final character (the greedy inner `\s*`
keeps all but one character of the run inside the capture group). -/
def r5go : R5State → Str → Str
  | .scan _, [] => []
  | .collA a, [] => a.reverse
  | .collD a b d, [] =>
    if d.isEmpty then a.reverse ++ [b] else a.reverse ++ b :: d.tail.reverse
  | .scan ls, c :: rest =>
    if ls && isWs c then r5go (.collA [c]) rest
    else if ls && isBullet c then r5go (.collD [] c []) rest
    else c :: r5go (.scan (c = '\n')) rest
  | .collA a, c :: rest =>
    if isWs c then r5go (.collA (c :: a)) rest
    else if isBullet c then r5go (.collD a c []) rest
    else a.reverse ++ c :: r5go (.scan (c = '\n')) rest
  | .collD a b d, c :: rest =>
    if isWs c then r5go (.collD a b (c :: d)) rest
    else if d.isEmpty then a.reverse ++ b :: c :: r5go (.scan (c = '\n')) rest
    else a.reverse ++ b :: d.tail.reverse ++
      (if d.head? = some '\n' && isBullet c then r5go (.collD [] c []) rest
       else c :: r5go (.scan (c = '\n')) rest)

/-- `cleanMarkdown` of `src/markdownHelper.ts`: the five replacements applied
in source order, followed by `.trim()`. -/
def cleanMarkdown (markdown : Str) : Str :=
  trimWs (r5go (.scan true) (r4go none true (r3go [] (r2go [] (r1go 0 markdown)))))

/-! ## The emphasis sanitizer (`handleEmphasisFormatting`) -/

/-- Whether a string is a non-empty match of the trailing alternation
`(\s+|[.,!?;:\-—–]+\s*|\s*[.,!?;:\-—–]+|\s+[.,!?;:\-—–]+\s*)` of
`handleEmphasisFormatting`, i.e. a non-empty word of shape
whitespace*, punctuation*, whitespace*. -/
def isTrailShape (l : Str) : Bool :=
  !l.isEmpty && (((l.dropWhile isWs).dropWhile isPunctE).dropWhile isWs).isEmpty

/-- The JavaScript line terminators (ASCII part): `.` without the `s` flag
matches any character except these. -/
def isLineTerm (c : Char) : Bool :=
  c = '\n' || c = '\r'

/-- The split performed by `remaining.match(/^(.+?)(…)$/)`: the lazy `(.+?)`
finds the shortest non-empty prefix whose complement matches the trailing
alternation.  JavaScript's `.` does not match a line terminator, so the
group cannot grow past one: when a line terminator is reached before a
valid split, the match fails and the whole string is the core, with an
empty trail. -/
def splitTrail : Str → Str × Str
  | [] => ([], [])
  | c :: rest =>
    if isLineTerm c then (c :: rest, [])
    else if isTrailShape rest then ([c], rest)
    else
      let p := splitTrail rest
      (c :: p.1, p.2)

/-- `handleEmphasisFormatting` of `src/markdownHelper.ts`.  The test
`!coreContent || /^[.,!?;:\-—–\s]*$/.test(coreContent)` is rendered as
`core.all …` (an empty core passes it as well). -/
def handleEmphasisFormatting (content marker : Str) : Str :=
  let lead := content.takeWhile isWs
  let remaining := content.dropWhile isWs
  let core0 := (splitTrail remaining).1
  let trail := (splitTrail remaining).2
  let core := trimWs core0
  if core.all (fun c => isPunctE c || isWs c) then content
  else lead ++ marker ++ core ++ marker ++ trail

/-- The split as claim C4 describes it: the trailing whitespace/punctuation
run is always separated from the core, with no regard for line
terminators. -/
def claimSplitTrail : Str → Str × Str
  | [] => ([], [])
  | c :: rest =>
    if isTrailShape rest then ([c], rest)
    else
      let p := claimSplitTrail rest
      (c :: p.1, p.2)

/-- The sanitizer as claim C4 describes it: `handleEmphasisFormatting` with
the claim's unconditional trailing-run split. -/
def claimSanitize (content marker : Str) : Str :=
  let lead := content.takeWhile isWs
  let remaining := content.dropWhile isWs
  let core0 := (claimSplitTrail remaining).1
  let trail := (claimSplitTrail remaining).2
  let core := trimWs core0
  if core.all (fun c => isPunctE c || isWs c) then content
  else lead ++ marker ++ core ++ marker ++ trail

/-! ## The document model

The external `DOMParser` collaborator produces a tree of text and element
nodes; `NodeList` is the (mutually inductive) list of children, so that all
tree recursions are plain structural recursions. -/

mutual
/-- A DOM node: decoded text, or an element with tag, attributes, children. -/
inductive Node where
  | text : Str → Node
  | elem : Str → List (Str × Str) → NodeList → Node
/-- The children of an element, in document order. -/
inductive NodeList where
  | nil : NodeList
  | cons : Node → NodeList → NodeList
end

/-- Build a `NodeList` from a Lean list. -/
def nlist : List Node → NodeList
  | [] => .nil
  | c :: rest => .cons c (nlist rest)

/-- View a `NodeList` as a Lean list. -/
def NodeList.toList : NodeList → List Node
  | .nil => []
  | .cons c rest => c :: rest.toList

/-- The tag of an element (`""` for a text node). -/
def tagOf : Node → Str
  | .text _ => []
  | .elem t _ _ => t

/-- `getAttribute`: `none` models JavaScript's `null`. -/
def getAttr (n : Node) (name : Str) : Option Str :=
  match n with
  | .text _ => none
  | .elem _ attrs _ => (attrs.find? (fun a => a.1 == name)).map (·.2)

/-- Split a `class` attribute value on whitespace, dropping empty tokens. -/
def splitWsGo : Str → Str → List Str
  | cur, [] => if cur.isEmpty then [] else [cur.reverse]
  | cur, c :: rest =>
    if isWs c then
      if cur.isEmpty then splitWsGo [] rest else cur.reverse :: splitWsGo [] rest
    else splitWsGo (c :: cur) rest

/-- The `classList` of an element. -/
def classesOf (n : Node) : List Str :=
  match getAttr n (str "class") with
  | some s => splitWsGo [] s
  | none => []

/-- `classList.contains`. -/
def hasClass (n : Node) (c : Str) : Bool :=
  (classesOf n).contains c

/-- `haystack` contains `needle` as a contiguous substring
(JavaScript `String.prototype.includes`). -/
def hasSub : Str → Str → Bool
  | hay, needle =>
    match hay with
    | [] => needle.isEmpty
    | _ :: rest => needle.isPrefixOf hay || hasSub rest needle

mutual
/-- `textContent`: the concatenation of all descendant text, in order. -/
def textContent : Node → Str
  | .text s => s
  | .elem _ _ cs => textContentList cs
/-- `textContent` over a child list. -/
def textContentList : NodeList → Str
  | .nil => []
  | .cons c rest => textContent c ++ textContentList rest
end

/-! ### CSS selectors

The engine only uses comma lists of descendant chains of simple selectors
built from a tag test, a class test and a substring attribute test
(`[attr*="v"]`). -/

/-- One condition of a simple selector. -/
inductive SelAtom where
  | tagIs : Str → SelAtom
  | clsIs : Str → SelAtom
  | attrHas : Str → Str → SelAtom

/-- A simple (compound) selector: a conjunction of conditions. -/
abbrev Simp := List SelAtom

/-- A descendant chain `outer₁ outer₂ … subj`. -/
structure Chain where
  outer : List Simp
  subj : Simp

/-- A comma list of chains. -/
abbrev Sel := List Chain

/-- Does node `n` satisfy one selector condition? -/
def matchAtom (n : Node) : SelAtom → Bool
  | .tagIs t => tagOf n == t
  | .clsIs c => hasClass n c
  | .attrHas a v =>
    match getAttr n a with
    | some s => hasSub s v
    | none => false

/-- Does node `n` satisfy a compound selector? -/
def matchSimp (n : Node) (s : Simp) : Bool :=
  s.all (matchAtom n)

/-- Do the ancestor selectors of a chain embed, outermost first, into the
ancestor list (given root first)? -/
def ancChain : List Node → List Simp → Bool
  | _, [] => true
  | [], _ :: _ => false
  | a :: anc, s :: sels =>
    if matchSimp a s then ancChain anc sels else ancChain anc (s :: sels)

/-- Does `n`, with ancestor list `anc` (root first), match the selector? -/
def selMatches (anc : List Node) (n : Node) (sel : Sel) : Bool :=
  sel.any (fun ch => matchSimp n ch.subj && ancChain anc ch.outer)

/-! ### Paths

Elements are addressed by their path from the root: the list of child
indices (into the full child list, text nodes included).  This mirrors DOM
node identity, so that two structurally equal elements at different
positions stay distinct, as required by the `!==`/`contains` filter of
`extractContentInOrder`. -/

mutual
/-- All element positions in the subtree of `n`, in document (pre-order)
order; `[]` is `n` itself (only listed when `n` is an element). -/
def allPaths : Node → List (List Nat)
  | .text _ => []
  | .elem _ _ cs => [] :: pathsKids 0 cs
/-- Paths of elements inside a child list starting at child index `i`. -/
def pathsKids : Nat → NodeList → List (List Nat)
  | _, .nil => []
  | i, .cons c rest => (allPaths c).map (i :: ·) ++ pathsKids (i + 1) rest
end

/-- The `i`-th child of a node. -/
def childAt (n : Node) (i : Nat) : Option Node :=
  match n with
  | .text _ => none
  | .elem _ _ cs => cs.toList[i]?

/-- The node at a path below `root`. -/
def nodeAt : Node → List Nat → Option Node
  | n, [] => some n
  | n, i :: p =>
    match childAt n i with
    | some c => nodeAt c p
    | none => none

/-- The proper ancestors of the node at a path, root first. -/
def ancestorsAt : Node → List Nat → List Node
  | _, [] => []
  | n, i :: p =>
    n :: (match childAt n i with
          | some c => ancestorsAt c p
          | none => [])

/-- The first element node of a list (used for `nextElementSibling`). -/
def firstElem : List Node → Option Node
  | [] => none
  | .text _ :: rest => firstElem rest
  | n :: _ => some n

/-- `nextElementSibling` of the node at a path. -/
def nextSibAt : Node → List Nat → Option Node
  | _, [] => none
  | n, [i] =>
    (match n with
     | .text _ => none
     | .elem _ _ cs => firstElem (cs.toList.drop (i + 1)))
  | n, i :: p =>
    match childAt n i with
    | some c => nextSibAt c p
    | none => none

/-- `querySelectorAll` as a path list: the strict descendants of `root`
matching the selector, in document order. -/
def qsAllPaths (root : Node) (sel : Sel) : List (List Nat) :=
  (allPaths root).filter (fun p =>
    !p.isEmpty &&
      (match nodeAt root p with
       | some n => selMatches (ancestorsAt root p) n sel
       | none => false))

/-- The matching descendants themselves, in document order. -/
def elemsBySel (root : Node) (sel : Sel) : List Node :=
  (qsAllPaths root sel).filterMap (nodeAt root)

/-- `querySelector`: the first matching descendant. -/
def elemBySel (root : Node) (sel : Sel) : Option Node :=
  (elemsBySel root sel).head?

/-- `closest` restricted to simple selectors, as used by the engine: does
the element itself or one of its ancestors match one of the simple
selectors?  `selfUp` is the element followed by its ancestors. -/
def closestAny (selfUp : List Node) (sels : List Simp) : Bool :=
  selfUp.any (fun n => sels.any (matchSimp n))

/-- Shorthand for a selector that is a single tag chain. -/
def selTag (t : String) : Chain := ⟨[], [.tagIs (str t)]⟩

/-- Shorthand for a selector that is a single class chain. -/
def selCls (c : String) : Chain := ⟨[], [.clsIs (str c)]⟩

/-! ## Image, figure and captioned-container processors -/

/-- `processImage` of `src/markdownHelper.ts`.  JavaScript's `!src` is true
both when the attribute is absent (`null`) and when it is the empty string;
`width === '1'` compares the attribute (or `null`) against `"1"`. -/
def processImage (img : Node) : Str :=
  match getAttr img (str "src") with
  | none => []
  | some s =>
    if s = [] ∨ hasSub s (str "tracking") = true ∨
       getAttr img (str "width") = some (str "1") ∨
       getAttr img (str "height") = some (str "1") then []
    else
      let alt := (getAttr img (str "alt")).getD []
      let title := (getAttr img (str "title")).getD []
      if title = [] then str "![" ++ alt ++ str "](" ++ s ++ str ")"
      else str "![" ++ alt ++ str "](" ++ s ++ str " \"" ++ title ++ str "\")"

/-- Selector `img`. -/
def imgSel : Sel := [selTag "img"]

/-- Selector `figcaption, .image-caption, .caption` (used by `processFigure`). -/
def figCapSel : Sel := [selTag "figcaption", selCls "image-caption", selCls "caption"]

/-- Selector `.image-caption, .caption, figcaption, .subtitle`
(used by `processCaptionedImageContainer`). -/
def contCapSel : Sel :=
  [selCls "image-caption", selCls "caption", selTag "figcaption", selCls "subtitle"]

/-- `processFigure` of `src/markdownHelper.ts`. -/
def processFigure (figure : Node) : Str :=
  match elemBySel figure imgSel with
  | none => []
  | some img =>
    let imageMarkdown := processImage img
    if imageMarkdown = [] then []
    else
      match elemBySel figure figCapSel with
      | some caption => imageMarkdown ++ str "\n*" ++ trimWs (textContent caption) ++ str "*"
      | none => imageMarkdown

/-- `processCaptionedImageContainer` of `src/markdownHelper.ts`, including
the precedence of `a || b ? c : null`: whenever a descendant caption
exists or the next element sibling carries class `caption`, the caption
used is the next element sibling (possibly absent). -/
def processCaptionedImageContainer (container : Node) (sib : Option Node) : Str :=
  match elemBySel container imgSel with
  | none => []
  | some img =>
    let imageMarkdown := processImage img
    if imageMarkdown = [] then []
    else
      let sibCap : Bool :=
        match sib with
        | some s => hasClass s (str "caption")
        | none => false
      let caption :=
        if ((elemBySel container contCapSel).isSome || sibCap) = true then sib
        else none
      match caption with
      | some cap => imageMarkdown ++ str "\n*" ++ trimWs (textContent cap) ++ str "*"
      | none => imageMarkdown

/-! ## The inline formatter (`processInlineElementsSimple`) -/

mutual
/-- `processNode` inside `processInlineElementsSimple`. -/
def processNode : Node → Str
  | .text s => s
  | .elem t attrs cs =>
    if t = str "strong" ∨ t = str "b" then
      str "**" ++ processNodes cs ++ str "**"
    else if t = str "em" ∨ t = str "i" then
      let result := processNodes cs
      if result.all isWs = true then result
      else if trimWs result = [] then []
      else handleEmphasisFormatting result (str "*")
    else if t = str "code" then
      str "`" ++ textContentList cs ++ str "`"
    else if t = str "img" then
      processImage (.elem t attrs cs)
    else if t = str "a" then
      let linkText := textContentList cs
      match getAttr (.elem t attrs cs) (str "href") with
      | some h =>
        if h ≠ [] ∧ hasSub h (str "unsubscribe") = false then
          if hasSub h (str "substack.com/app-link") = true ∧
             hasSub h (str "redirect=app-store") = false ∧
             (hasSub h (str "action=like") = true ∨ hasSub h (str "action=share") = true ∨
              hasSub h (str "action=comment") = true ∨ hasSub h (str "submitLike=true") = true) then
            linkText
          else str "[" ++ linkText ++ str "](" ++ h ++ str ")"
        else linkText
      | none => linkText
    else if t = str "span" then
      if hasClass (.elem t attrs cs) (str "footnote-anchor-email") = true then
        str "[^" ++ textContentList cs ++ str "]"
      else processNodes cs
    else if t = str "br" then str "\n"
    else processNodes cs
/-- Concatenation of `processNode` over a child list. -/
def processNodes : NodeList → Str
  | .nil => []
  | .cons c rest => processNode c ++ processNodes rest
end

/-- `processInlineElementsSimple`: `processNode` over the children. -/
def processInlineElementsSimple : Node → Str
  | .text s => s
  | .elem _ _ cs => processNodes cs

/-! ## The structural extractor (`extractContentInOrder`) -/

/-- A heading `h<level>`: `'#'.repeat(level) + ' ' + text + '\n\n'`,
omitted when the trimmed text is empty. -/
def headingRender (level : Nat) (n : Node) : Str :=
  let headingText := trimWs (textContent n)
  if headingText = [] then []
  else List.replicate level '#' ++ str " " ++ headingText ++ str "\n\n"

/-- `String.prototype.split('\n')`. -/
def splitOnNl : Str → List Str
  | [] => [[]]
  | c :: rest =>
    if c = '\n' then [] :: splitOnNl rest
    else
      match splitOnNl rest with
      | [] => [[c]]
      | l :: ls => (c :: l) :: ls

/-- The `blockquote` arm: trimmed `textContent`, split on newlines, each
line trimmed, empty lines dropped, `"> "` prefixes, joined with newlines. -/
def blockquoteRender (n : Node) : Str :=
  let quoteText := trimWs (textContent n)
  if quoteText = [] then []
  else
    List.intercalate (str "\n")
      ((((splitOnNl quoteText).map trimWs).filter (fun l => !l.isEmpty)).map
        (fun l => str "> " ++ l)) ++ str "\n\n"

/-- Decimal rendering of a natural number. -/
def natStr (n : Nat) : Str := (Nat.repr n).data

/-- Selector `li`. -/
def liSel : Sel := [selTag "li"]

/-- The `ul`/`ol` arm: `element.querySelectorAll('li')` (all descendant
`li`, in document order), each rendered inline; the prefix carries the
1-based position in that full item list; blank items emit nothing; a final
newline closes the block. -/
def listRenderImpl (n : Node) (ordered : Bool) : Str :=
  let items := elemsBySel n liSel
  (items.enum.map (fun pi =>
    let itemText := trimWs (processInlineElementsSimple pi.2)
    if itemText = [] then []
    else (if ordered then natStr (pi.1 + 1) ++ str "." else str "-") ++
      str " " ++ itemText ++ str "\n")).flatten ++ str "\n"

/-- The simple selectors used by `closest` calls. -/
def bqSimp : List Simp := [[.tagIs (str "blockquote")]]

/-- `closest('.footnote')`. -/
def fnSimp : List Simp := [[.clsIs (str "footnote")]]

/-- `closest('figure')`. -/
def figSimp : List Simp := [[.tagIs (str "figure")]]

/-- `closest('.captioned-image-container')`. -/
def capcSimp : List Simp := [[.clsIs (str "captioned-image-container")]]

/-- Selector `.footnote-number`. -/
def fnNumSel : Sel := [selCls "footnote-number"]

/-- Selector `.footnote-content`. -/
def fnContSel : Sel := [selCls "footnote-content"]

/-- The `switch (tagName)` dispatch of `extractContentInOrder` for one
selected element.  `selfUp` is the element followed by its ancestors
(for the `closest` calls), `sib` its `nextElementSibling`. -/
def renderElem (n : Node) (selfUp : List Node) (sib : Option Node) : Str :=
  match n with
  | .text _ => []
  | .elem t attrs cs =>
    let e := Node.elem t attrs cs
    if t = str "h2" then headingRender 2 e
    else if t = str "h3" then headingRender 3 e
    else if t = str "h4" then headingRender 4 e
    else if t = str "h5" then headingRender 5 e
    else if t = str "h6" then headingRender 6 e
    else if t = str "p" then
      if closestAny selfUp bqSimp = true ∨ closestAny selfUp fnSimp = true then []
      else
        let paragraphText := trimWs (processInlineElementsSimple e)
        if paragraphText = [] then [] else paragraphText ++ str "\n\n"
    else if t = str "blockquote" then blockquoteRender e
    else if t = str "hr" then str "---\n\n"
    else if t = str "ul" then listRenderImpl e false
    else if t = str "ol" then listRenderImpl e true
    else if t = str "img" then
      if closestAny selfUp figSimp = false ∧ closestAny selfUp capcSimp = false then
        let imageMarkdown := processImage e
        if imageMarkdown = [] then [] else imageMarkdown ++ str "\n\n"
      else []
    else if t = str "figure" then
      let figureMarkdown := processFigure e
      if figureMarkdown = [] then [] else figureMarkdown ++ str "\n\n"
    else if t = str "div" then
      if hasClass e (str "footnote") = true then
        match (elemBySel e fnNumSel).map textContent,
              (elemBySel e fnContSel).map textContent with
        | some footnoteNum, some footnoteContent =>
          if footnoteNum ≠ [] ∧ footnoteContent ≠ [] then
            str "[^" ++ footnoteNum ++ str "]: " ++ trimWs footnoteContent ++ str "\n\n"
          else []
        | _, _ => []
      else if hasClass e (str "captioned-image-container") = true then
        let imageMarkdown := processCaptionedImageContainer e sib
        if imageMarkdown = [] then [] else imageMarkdown ++ str "\n\n"
      else []
    else []

/-- Render the selected element at path `p` below the extraction root. -/
def renderBlockAt (root : Node) (p : List Nat) : Str :=
  match nodeAt root p with
  | some n => renderElem n (n :: (ancestorsAt root p).reverse) (nextSibAt root p)
  | none => []

/-- The candidate selector of `extractContentInOrder`:
`h2, h3, h4, h5, h6, p, blockquote, hr, ul, ol, .footnote, img, figure,
.captioned-image-container`. -/
def extractSel : Sel :=
  [selTag "h2", selTag "h3", selTag "h4", selTag "h5", selTag "h6",
   selTag "p", selTag "blockquote", selTag "hr", selTag "ul", selTag "ol",
   selCls "footnote", selTag "img", selTag "figure",
   selCls "captioned-image-container"]

/-- The candidate paths (`allElements`), in document order. -/
def candPaths (root : Node) : List (List Nat) :=
  qsAllPaths root extractSel

/-- Is the element at `q` one of the self-consuming container kinds tested
by the filter (`blockquote`, `ul`, `ol`, class `footnote`, `figure`,
class `captioned-image-container`)? -/
def containerKindAt (root : Node) (q : List Nat) : Bool :=
  match nodeAt root q with
  | some n =>
    tagOf n == str "blockquote" || tagOf n == str "ul" || tagOf n == str "ol" ||
    hasClass n (str "footnote") || tagOf n == str "figure" ||
    hasClass n (str "captioned-image-container")
  | none => false

/-- `otherElement !== element && otherElement.contains(element)`:
a strict ancestor in path terms. -/
def strictPrefB (q p : List Nat) : Bool :=
  decide (q <+: p ∧ q ≠ p)

/-- The filter of `extractContentInOrder`: keep a candidate unless some
other candidate of container kind strictly contains it. -/
def keepAt (root : Node) (p : List Nat) : Bool :=
  !((candPaths root).any (fun q => strictPrefB q p && containerKindAt root q))

/-- `topLevelElements`: the candidates surviving the filter, in order. -/
def selectedPaths (root : Node) : List (List Nat) :=
  (candPaths root).filter (keepAt root)

/-- `extractContentInOrder`: each selected element rendered once, in
document order. -/
def extractContentInOrder (root : Node) : Str :=
  ((selectedPaths root).map (renderBlockAt root)).flatten

/-! ## Header extraction and the orchestrator -/

/-- Selector `h1, .post-title`. -/
def titleSel : Sel := [selTag "h1", selCls "post-title"]

/-- Selector `h3.subtitle, .subtitle`. -/
def subtitleSel : Sel :=
  [⟨[], [.tagIs (str "h3"), .clsIs (str "subtitle")]⟩, selCls "subtitle"]

/-- Selector `.meta-EgzBVA a, [data-component-name*="author"]`. -/
def authorSel : Sel :=
  [⟨[[.clsIs (str "meta-EgzBVA")]], [.tagIs (str "a")]⟩,
   ⟨[], [.attrHas (str "data-component-name") (str "author")]⟩]

/-- Selector `time`. -/
def timeSel : Sel := [selTag "time"]

/-- Selector `a[href*="redirect=app-store"]`. -/
def appStoreSel : Sel :=
  [⟨[], [.tagIs (str "a"), .attrHas (str "href") (str "redirect=app-store")]⟩]

/-- The title fragment of `htmlToMarkdown`. -/
def titleFragment (doc : Node) : Str :=
  match elemBySel doc titleSel with
  | some title => str "# " ++ trimWs (textContent title) ++ str "\n\n"
  | none => []

/-- The subtitle fragment of `htmlToMarkdown`. -/
def subtitleFragment (doc : Node) : Str :=
  match elemBySel doc subtitleSel with
  | some subtitle => str "*" ++ trimWs (textContent subtitle) ++ str "*\n\n"
  | none => []

/-- The author/date fragment of `htmlToMarkdown`: emitted whenever an
author or a `time` element is found, with `"Unknown"` standing in for a
missing author. -/
def authorDateFragment (doc : Node) : Str :=
  let author := elemBySel doc authorSel
  let date := elemBySel doc timeSel
  if author.isSome = true ∨ date.isSome = true then
    str "**Author:** " ++
      (match author with
       | some a => trimWs (textContent a)
       | none => str "Unknown") ++
      (match date with
       | some d => str " | **Date:** " ++ trimWs (textContent d)
       | none => []) ++ str "\n\n"
  else []

/-- The "Read in App" fragment: the `redirect=app-store` anchor, or the
first anchor whose upper-cased text contains `READ IN APP`; a missing
`href` renders as JavaScript's `"null"` interpolation. -/
def readInAppFragment (doc : Node) : Str :=
  let link :=
    match elemBySel doc appStoreSel with
    | some l => some l
    | none =>
      (elemsBySel doc [selTag "a"]).find?
        (fun a => hasSub ((textContent a).map Char.toUpper) (str "READ IN APP"))
  match link with
  | some l =>
    str "📱 [" ++ trimWs (textContent l) ++ str "](" ++
      (getAttr l (str "href")).getD (str "null") ++ str ")\n\n"
  | none => []

/-- Selector `.body.markup`. -/
def contentSel1 : Sel := [⟨[], [.clsIs (str "body"), .clsIs (str "markup")]⟩]

/-- Selector `.post.typography .body`. -/
def contentSel2 : Sel :=
  [⟨[[.clsIs (str "post"), .clsIs (str "typography")]], [.clsIs (str "body")]⟩]

/-- Selector `.markup`. -/
def contentSel3 : Sel := [selCls "markup"]

/-- Selector `body`. -/
def bodySel : Sel := [selTag "body"]

/-- The container-selection loop: first selector whose match has non-empty
trimmed text. -/
def findGood (doc : Node) : List Sel → Option Node
  | [] => none
  | s :: rest =>
    match elemBySel doc s with
    | some n => if trimWs (textContent n) ≠ [] then some n else findGood doc rest
    | none => findGood doc rest

/-- The content container: the loop over the four selectors, falling back
to the document body (`doc.body`, i.e. the first `body` element). -/
def pickContainer (doc : Node) : Option Node :=
  match findGood doc [contentSel1, contentSel2, contentSel3, bodySel] with
  | some n => some n
  | none => elemBySel doc bodySel

/-- The body part of `htmlToMarkdown`. -/
def bodyMarkdown (doc : Node) : Str :=
  match pickContainer doc with
  | some c => extractContentInOrder c
  | none => []

/-- `htmlToMarkdown` of `src/markdownHelper.ts` on a parsed document. -/
def htmlToMarkdown (doc : Node) : Str :=
  trimWs (titleFragment doc ++ subtitleFragment doc ++ authorDateFragment doc ++
    readInAppFragment doc ++ str "---\n\n" ++ bodyMarkdown doc)

/-- `convertHtmltoMarkdown`: conversion followed by cleanup. -/
def convertHtmltoMarkdown (doc : Node) : Str :=
  cleanMarkdown (htmlToMarkdown doc)

/-! ## Concrete documents used by the claim theorems -/

/-- Convenience constructor for an element node. -/
def el (t : String) (attrs : List (String × String)) (cs : List Node) : Node :=
  .elem (str t) (attrs.map (fun a => (str a.1, str a.2))) (nlist cs)

/-- Convenience constructor for a text node. -/
def txt (s : String) : Node := .text (str s)

/-- The tree the external `DOMParser` collaborator (mode `text/html`)
produces for the HTML string `<h1>Title</h1><p>Hello <strong>world</strong></p>`:
the fragment is wrapped in `html`/`head`/`body`. -/
def exTitleDoc : Node :=
  el "html" []
    [el "head" [] [],
     el "body" []
       [el "h1" [] [txt "Title"],
        el "p" [] [txt "Hello ", el "strong" [] [txt "world"]]]]

/-! ## Claim C5: the tracking-pixel filter -/

/-- An `img` whose `src` attribute is present but empty. -/
def imgEmptySrc : Node := el "img" [("src", "")] []

/-- A plain image element. -/
def imgGood : Node := el "img" [("src", "x.png"), ("alt", "a")] []

/-! ## Claim C6: the captioned-image-container caption fallback -/

/-- A `captioned-image-container` with an inner `.image-caption` element
and no following sibling. -/
def exCapCont : Node :=
  el "div" [("class", "captioned-image-container")]
    [el "img" [("src", "i.png")] [],
     el "div" [("class", "image-caption")] [txt "Cap"]]

/-! ## Claim C7: footnote block rendering -/

/-- The footnote rule as the (amended) specification states it: the first
`.footnote-number` descendant and the first `.footnote-content` descendant,
both with non-empty text, give `[^number]: content\n\n`; anything else
gives nothing. -/
def footnoteRenderSpec (n : Node) : Str :=
  match elemBySel n fnNumSel, elemBySel n fnContSel with
  | some nu, some co =>
    if textContent nu ≠ [] ∧ textContent co ≠ [] then
      str "[^" ++ textContent nu ++ str "]: " ++ trimWs (textContent co) ++ str "\n\n"
    else []
  | _, _ => []

/-- A document whose footnote block is a `section`, not a `div`. -/
def exSectionFnDoc : Node :=
  el "body" []
    [el "section" [("class", "footnote")]
      [el "span" [("class", "footnote-number")] [txt "1"],
       el "span" [("class", "footnote-content")] [txt "hi"]]]

/-- The same footnote block as a `div`. -/
def exDivFn : Node :=
  el "div" [("class", "footnote")]
    [el "span" [("class", "footnote-number")] [txt "1"],
     el "span" [("class", "footnote-content")] [txt "hi"]]

/-! ## Claim C8: list rendering -/

/-- The per-item lines of a list block, as the (amended) specification
states them: item `i` (0-based position in the collected item list) is
rendered inline and trimmed; blank items emit nothing; other items get the
`- ` or `{i+1}. ` prefix and a newline. -/
def listLinesSpec (ordered : Bool) : Nat → List Node → Str
  | _, [] => []
  | i, li :: rest =>
    let itemText := trimWs (processInlineElementsSimple li)
    (if itemText = [] then []
     else (if ordered then natStr (i + 1) ++ str ". " else str "- ") ++
       itemText ++ str "\n") ++ listLinesSpec ordered (i + 1) rest

/-- The list rule as the (amended) specification states it: all descendant
`li` elements, in document order, numbered by their position in that full
list, with a closing newline. -/
def listRenderSpec (n : Node) (ordered : Bool) : Str :=
  listLinesSpec ordered 0 (elemsBySel n liSel) ++ str "\n"

/-- Only the direct `li` children of the element (the reading the original
claim asserts). -/
def directLiChildren (n : Node) : List Node :=
  match n with
  | .text _ => []
  | .elem _ _ cs => cs.toList.filter (fun c => tagOf c == str "li")

/-- The list rule as the original claim reads it: only direct `li`
children are rendered. -/
def claimListRender (n : Node) (ordered : Bool) : Str :=
  listLinesSpec ordered 0 (directLiChildren n) ++ str "\n"

/-- A `ul` with a nested list inside its only direct `li`. -/
def exNestedUl : Node :=
  el "ul" []
    [el "li" [] [txt "a", el "ul" [] [el "li" [] [txt "b"]]]]

/-! ## Claim C10: filtered images suppress captions -/

/-- A figure whose only image is a tracking pixel, with a caption present. -/
def exTrackFig : Node :=
  el "figure" []
    [el "img" [("src", "https://cdn.example/tracking/open.gif")] [],
     el "figcaption" [] [txt "A caption"]]

/-- A document with a date but no author selector hit. -/
def exDateOnlyDoc : Node :=
  el "html" []
    [el "body" []
      [el "time" [] [txt "2024-01-02"],
       el "p" [] [txt "x"]]]

/-- A body whose paragraph sits inside a blockquote. -/
def exBqDoc : Node :=
  el "body" [] [el "blockquote" [] [el "p" [] [txt "q"]]]

/-- Two string literals coerce to the same `Str` iff they are equal; with
this, `simp` decides every ground tag comparison. -/
theorem str_inj {a b : String} : str a = str b ↔ a = b :=
  ⟨fun h => congrArg String.mk h, fun h => congrArg String.data h⟩

example : cleanMarkdown (str "a\n\n\n\nb") = str "a\n\nb" := by decide

example : cleanMarkdown (str "a , b") = str "a, b" := by decide

example : cleanMarkdown (str "a  \nb") = str "a\nb" := by decide

example : cleanMarkdown (str ">  \nx") = str ">\nx" := by decide

example : cleanMarkdown (str "-  x") = str "- x" := by decide

example : cleanMarkdown (str "- x") = str "-x" := by decide

example : cleanMarkdown (str "a\n \n \nb") = str "a\n\n\nb" := by decide

example : handleEmphasisFormatting (str " . ") (str "*") = str " . " := by decide

example : handleEmphasisFormatting (str " word. ") (str "*") = str " *word*. " := by decide

example : handleEmphasisFormatting (str " hello world. ") (str "*") = str " *hello world*. " := by decide

example :
    elemsBySel
      (.elem (str "div") []
        (nlist [.elem (str "p") [] (nlist [.text (str "x"),
                  .elem (str "b") [(str "class", str "hot cold")] .nil]),
                .elem (str "b") [] .nil]))
      [selCls "hot"] =
    [.elem (str "b") [(str "class", str "hot cold")] .nil] := rfl

example :
    elemBySel
      (.elem (str "div") []
        (nlist [.elem (str "p") [] (nlist [.text (str "x")]),
                .elem (str "p") [(str "id", str "2")] .nil]))
      [selTag "p"] =
    some (.elem (str "p") [] (nlist [.text (str "x")])) := rfl

example : convertHtmltoMarkdown exTitleDoc = str "# Title\n\n---\n\nHello **world**" := by decide

/-! ## Claim C2: the end-to-end example -/

/-- C2, counterexample: converting the parsed tree of
`<h1>Title</h1><p>Hello <strong>world</strong></p>` does **not** give the
claimed string `"# Title\n\n---\n\nHello **world**\n\n"`: both
`htmlToMarkdown` and `cleanMarkdown` end with `.trim()`, so the result
carries no trailing newlines. -/
theorem c2_counterexample :
    convertHtmltoMarkdown exTitleDoc ≠ str "# Title\n\n---\n\nHello **world**\n\n" := by
  decide

/-- C2, amended: the conversion of
`<h1>Title</h1><p>Hello <strong>world</strong></p>` returns exactly
`"# Title\n\n---\n\nHello **world**"` after cleanup (the trailing blank
line of the claim is removed by the final trims). -/
theorem c2_amended_conversion :
    convertHtmltoMarkdown exTitleDoc = str "# Title\n\n---\n\nHello **world**" := by
  decide

/-! ## Claim C4: the emphasis sanitizer -/

/-- `splitTrail` is a decomposition of its input. -/
theorem splitTrail_append (l : Str) : (splitTrail l).1 ++ (splitTrail l).2 = l := by
  induction l with
  | nil => rfl
  | cons c rest ih =>
    by_cases ht : isLineTerm c = true
    · simp [splitTrail, ht]
    · by_cases h : isTrailShape rest = true
      · simp [splitTrail, ht, h]
      · simp [splitTrail, ht, h, ih]

/-- The trail produced by `splitTrail` is empty or of the trailing shape. -/
theorem splitTrail_shape (l : Str) :
    (splitTrail l).2 = [] ∨ isTrailShape (splitTrail l).2 = true := by
  induction l with
  | nil => exact Or.inl rfl
  | cons c rest ih =>
    by_cases ht : isLineTerm c = true
    · simp [splitTrail, ht]
    · by_cases h : isTrailShape rest = true
      · simp [splitTrail, ht, h]
      · simpa [splitTrail, ht, h] using ih

/-- When `splitTrail` does split, the core contains no line terminator
(`.` cannot cross one). -/
theorem splitTrail_core_noTerm (l : Str) :
    (splitTrail l).2 ≠ [] → (splitTrail l).1.all (fun c => !isLineTerm c) = true := by
  induction l with
  | nil => intro h; exact absurd rfl h
  | cons c rest ih =>
    intro hne
    by_cases ht : isLineTerm c = true
    · simp [splitTrail, ht] at hne
    · by_cases h : isTrailShape rest = true
      · simp [splitTrail, ht, h]
      · simp only [splitTrail, if_neg ht, if_neg h] at hne ⊢
        simp only [List.all_cons, Bool.and_eq_true]
        exact ⟨by simp [ht], ih hne⟩

/-- C4, counterexample: the claimed unconditional trailing-run split fails
when the core region contains a newline.  JavaScript's `.` in
`/^(.+?)(…)$/` cannot match a line terminator, so on `"a\nb. "` the match
fails and the source keeps the trailing `". "` inside the emphasis
(`"*a\nb.*"`), while the claim's split would give `"*a\nb*. "`. -/
theorem c4_counterexample :
    handleEmphasisFormatting (str "a\nb. ") (str "*") = str "*a\nb.*" ∧
    claimSanitize (str "a\nb. ") (str "*") = str "*a\nb*. " ∧
    handleEmphasisFormatting (str "a\nb. ") (str "*") ≠
      claimSanitize (str "a\nb. ") (str "*") := by
  decide

/-- C4, amended: `handleEmphasisFormatting` refuses to emphasize pure
punctuation/whitespace (`sanitize(" . ", "*") == " . "`), wraps a trimmed
core otherwise (`sanitize(" word. ", "*") == " *word*. "`), and in general
either returns the content unchanged or splits it as
`lead ++ core ++ trail` with `lead` whitespace, `trail` empty or of the
trailing whitespace/punctuation shape, and a trimmed, non-punctuation-only
core wrapped in the marker — where a non-empty trail is only ever split
off a core free of line terminators: past a newline the regex match fails,
the trail is empty, and the whole remainder is the core. -/
theorem c4_amended_emphasis_sanitizer :
    handleEmphasisFormatting (str " . ") (str "*") = str " . " ∧
    handleEmphasisFormatting (str " word. ") (str "*") = str " *word*. " ∧
    ∀ content marker : Str,
      handleEmphasisFormatting content marker = content ∨
      ∃ lead core trail : Str,
        content = lead ++ core ++ trail ∧
        handleEmphasisFormatting content marker =
          lead ++ marker ++ trimWs core ++ marker ++ trail ∧
        lead.all isWs = true ∧
        (trail = [] ∨ isTrailShape trail = true) ∧
        (trail ≠ [] → core.all (fun c => !isLineTerm c) = true) ∧
        trimWs core ≠ [] ∧
        (trimWs core).all (fun c => isPunctE c || isWs c) = false := by
  refine ⟨by decide, by decide, ?_⟩
  intro content marker
  by_cases hc :
      (trimWs (splitTrail (content.dropWhile isWs)).1).all
        (fun c => isPunctE c || isWs c) = true
  · left
    simp [handleEmphasisFormatting, hc]
  · right
    refine ⟨content.takeWhile isWs, (splitTrail (content.dropWhile isWs)).1,
      (splitTrail (content.dropWhile isWs)).2, ?_, ?_, ?_, ?_, ?_, ?_, ?_⟩
    · conv_lhs => rw [← List.takeWhile_append_dropWhile isWs content]
      rw [List.append_assoc, splitTrail_append]
    · simp [handleEmphasisFormatting, hc]
    · exact List.all_takeWhile
    · exact splitTrail_shape _
    · exact splitTrail_core_noTerm _
    · intro h
      exact hc (by simp [h])
    · exact Bool.eq_false_iff.mpr (fun h => hc h) |>.symm ▸ rfl

/-- C5, counterexample: for `<img src="">` the code returns `""` although
the `src` attribute is present, contains no `"tracking"`, and neither
`width` nor `height` equals `"1"` — JavaScript's `!src` also fires on the
empty string, which the claim's `iff` omits. -/
theorem c5_counterexample :
    processImage imgEmptySrc = [] ∧
    getAttr imgEmptySrc (str "src") = some [] ∧
    hasSub [] (str "tracking") = false ∧
    getAttr imgEmptySrc (str "width") = none ∧
    getAttr imgEmptySrc (str "height") = none := by
  decide

/-- `processImage` with a missing `src` attribute. -/
theorem processImage_no_src (n : Node) (h : getAttr n (str "src") = none) :
    processImage n = [] := by
  simp [processImage, h]

/-- `processImage` when one of the filter conditions fires. -/
theorem processImage_filtered (n : Node) (s : Str)
    (h : getAttr n (str "src") = some s)
    (hg : s = [] ∨ hasSub s (str "tracking") = true ∨
      getAttr n (str "width") = some (str "1") ∨
      getAttr n (str "height") = some (str "1")) :
    processImage n = [] := by
  simp only [processImage, h, if_pos hg]

/-- `processImage` when no filter condition fires. -/
theorem processImage_kept (n : Node) (s : Str)
    (h : getAttr n (str "src") = some s)
    (hg : ¬(s = [] ∨ hasSub s (str "tracking") = true ∨
      getAttr n (str "width") = some (str "1") ∨
      getAttr n (str "height") = some (str "1"))) :
    processImage n =
      if (getAttr n (str "title")).getD [] = [] then
        str "![" ++ (getAttr n (str "alt")).getD [] ++ str "](" ++ s ++ str ")"
      else
        str "![" ++ (getAttr n (str "alt")).getD [] ++ str "](" ++ s ++
          str " \"" ++ (getAttr n (str "title")).getD [] ++ str "\")" := by
  simp only [processImage, h, if_neg hg]

/-- Exposing the leading characters of the image syntax. -/
theorem bang_cons (x : Str) : str "![" ++ x = '!' :: '[' :: x := rfl

/-- C5, amended: `processImage` returns `""` iff the `src` attribute is
missing **or empty**, or contains `"tracking"`, or `width`/`height` equals
`"1"`; otherwise it returns `![alt](src)`, or `![alt](src "title")` when
the `title` attribute is non-empty (with `alt` defaulting to `""`). -/
theorem c5_amended_tracking_filter (n : Node) :
    (processImage n = [] ↔
      getAttr n (str "src") = none ∨ getAttr n (str "src") = some [] ∨
      (∃ s, getAttr n (str "src") = some s ∧ hasSub s (str "tracking") = true) ∨
      getAttr n (str "width") = some (str "1") ∨
      getAttr n (str "height") = some (str "1")) ∧
    (∀ s, getAttr n (str "src") = some s → processImage n ≠ [] →
      processImage n =
        if (getAttr n (str "title")).getD [] = [] then
          str "![" ++ (getAttr n (str "alt")).getD [] ++ str "](" ++ s ++ str ")"
        else
          str "![" ++ (getAttr n (str "alt")).getD [] ++ str "](" ++ s ++
            str " \"" ++ (getAttr n (str "title")).getD [] ++ str "\")") := by
  rcases h : getAttr n (str "src") with - | s
  · refine ⟨?_, ?_⟩
    · simp [processImage_no_src n h]
    · intro s hs
      exact absurd hs (by simp)
  · by_cases hg : s = [] ∨ hasSub s (str "tracking") = true ∨
        getAttr n (str "width") = some (str "1") ∨
        getAttr n (str "height") = some (str "1")
    · have he := processImage_filtered n s h hg
      refine ⟨?_, ?_⟩
      · rw [he]
        simp only [true_iff]
        rcases hg with h1 | h2 | h3 | h4
        · exact Or.inr (Or.inl (by rw [h1]))
        · exact Or.inr (Or.inr (Or.inl ⟨s, rfl, h2⟩))
        · exact Or.inr (Or.inr (Or.inr (Or.inl h3)))
        · exact Or.inr (Or.inr (Or.inr (Or.inr h4)))
      · intro s' _ hne
        exact absurd he hne
    · have he := processImage_kept n s h hg
      push_neg at hg
      obtain ⟨hg1, hg2, hg3, hg4⟩ := hg
      have hne : processImage n ≠ [] := by
        rw [he]
        split <;> rw [bang_cons] <;> simp
      refine ⟨?_, ?_⟩
      · refine ⟨fun hh => absurd hh hne, ?_⟩
        rintro (h1 | h1 | ⟨s', hs', ht⟩ | h1 | h1)
        · exact absurd h1 (by simp)
        · obtain rfl := Option.some_injective _ h1
          exact absurd rfl hg1
        · obtain rfl := Option.some_injective _ hs'
          exact absurd ht (by simpa using hg2)
        · exact absurd h1 hg3
        · exact absurd h1 hg4
      · intro s' hs' _
        obtain rfl := Option.some_injective _ hs'
        exact he

/-- C5, witness: the amended theorem applied to a concrete image. -/
theorem c5_witness : processImage imgGood = str "![a](x.png)" := by
  have h := (c5_amended_tracking_filter imgGood).2 (str "x.png") (by decide) (by decide)
  rw [h]; decide

/-- C6 (code bug): with the inner caption present and no next sibling, the
code emits the bare image — the `a || b ? c : null` precedence makes the
selector hit select the (absent) sibling instead of the found descendant,
so the claimed caption line `*Cap*` never appears. -/
theorem c6_caption_fallback_bug :
    processCaptionedImageContainer exCapCont none = str "![](i.png)" ∧
    (elemBySel exCapCont contCapSel).isSome = true ∧
    str "![](i.png)" ≠ str "![](i.png)\n*Cap*" := by
  decide

/-- C7, counterexample: a `section` carrying class `footnote` with both a
`.footnote-number` and a `.footnote-content` descendant is selected, yet
`renderBody` emits nothing for the whole document — the `switch` only
handles footnotes under `case 'div'`, so the claim's "regardless of its tag
name" fails. -/
theorem c7_counterexample :
    extractContentInOrder exSectionFnDoc = [] ∧
    [0] ∈ selectedPaths exSectionFnDoc ∧
    footnoteRenderSpec (el "section" [("class", "footnote")]
      [el "span" [("class", "footnote-number")] [txt "1"],
       el "span" [("class", "footnote-content")] [txt "hi"]]) = str "[^1]: hi\n\n" ∧
    (str "[^1]: hi\n\n" : Str) ≠ [] := by
  decide

/-- C7, amended: for every selected element whose tag is `div` and which
carries class `footnote`, the dispatch emits `[^number]: content\n\n` when
the first `.footnote-number` descendant and the first `.footnote-content`
descendant both exist with non-empty text (the content trimmed), and
nothing otherwise. -/
theorem c7_amended_footnote_render (n : Node) (selfUp : List Node) (sib : Option Node)
    (ht : tagOf n = str "div") (hc : hasClass n (str "footnote") = true) :
    renderElem n selfUp sib = footnoteRenderSpec n := by
  cases n with
  | text s =>
    simp only [tagOf] at ht
    exact absurd ht (by decide)
  | elem t attrs cs =>
    simp only [tagOf] at ht
    subst ht
    cases hnu : elemBySel (Node.elem (str "div") attrs cs) fnNumSel <;>
      cases hco : elemBySel (Node.elem (str "div") attrs cs) fnContSel <;>
      simp [renderElem, footnoteRenderSpec, hc, hnu, hco, str_inj]

/-- C7, witness: the amended theorem applied to a concrete `div.footnote`. -/
theorem c7_witness : renderElem exDivFn [] none = footnoteRenderSpec exDivFn := by
  exact c7_amended_footnote_render exDivFn [] none (by decide) (by decide)

/-- C8, counterexample: on a nested list the code renders **all** descendant
`li` elements (`querySelectorAll('li')`), not only the direct ones, so the
inner item is listed again on its own line. -/
theorem c8_counterexample :
    renderElem exNestedUl [] none ≠ claimListRender exNestedUl false ∧
    renderElem exNestedUl [] none = str "- ab\n- b\n\n" ∧
    claimListRender exNestedUl false = str "- ab\n\n" := by
  decide

/-- `enumFrom`-indexed rendering agrees with the indexed recursion. -/
theorem listLines_enumFrom (ordered : Bool) (items : List Node) :
    ∀ i : Nat,
      ((items.enumFrom i).map (fun pi =>
        let itemText := trimWs (processInlineElementsSimple pi.2)
        if itemText = [] then []
        else (if ordered then natStr (pi.1 + 1) ++ str "." else str "-") ++
          str " " ++ itemText ++ str "\n")).flatten = listLinesSpec ordered i items := by
  induction items with
  | nil => intro i; rfl
  | cons li rest ih =>
    intro i
    simp only [List.enumFrom, List.map, List.flatten, listLinesSpec, ih (i + 1)]
    by_cases h : trimWs (processInlineElementsSimple li) = []
    · simp [h]
    · cases ordered <;> simp only [h, if_neg h, Bool.false_eq_true, if_false, if_true,
        List.append_assoc] <;> rfl

/-- `listRenderImpl` agrees with the specification rendering. -/
theorem listRenderImpl_eq_spec (n : Node) (ordered : Bool) :
    listRenderImpl n ordered = listRenderSpec n ordered := by
  unfold listRenderImpl listRenderSpec
  exact congrArg (· ++ str "\n") (listLines_enumFrom ordered (elemsBySel n liSel) 0)

/-- C8, amended: for every selected `ul` or `ol` element the dispatch
renders all descendant `li` elements in document order — `ul` items with a
`- ` prefix, `ol` items with the 1-based position in the full collected
item list — skipping items whose trimmed inline rendering is blank, and
closes the block with a final newline. -/
theorem c8_amended_list_render (n : Node) (selfUp : List Node) (sib : Option Node) :
    (tagOf n = str "ul" → renderElem n selfUp sib = listRenderSpec n false) ∧
    (tagOf n = str "ol" → renderElem n selfUp sib = listRenderSpec n true) := by
  constructor
  · intro ht
    cases n with
    | text s =>
      simp only [tagOf] at ht
      exact absurd ht (by decide)
    | elem t attrs cs =>
      simp only [tagOf] at ht
      subst ht
      simp [renderElem, str_inj, listRenderImpl_eq_spec]
  · intro ht
    cases n with
    | text s =>
      simp only [tagOf] at ht
      exact absurd ht (by decide)
    | elem t attrs cs =>
      simp only [tagOf] at ht
      subst ht
      simp [renderElem, str_inj, listRenderImpl_eq_spec]

/-- C8, witness: the amended theorem applied to the nested list. -/
theorem c8_witness : renderElem exNestedUl [] none = listRenderSpec exNestedUl false := by
  exact (c8_amended_list_render exNestedUl [] none).1 (by decide)

/-- C10: whenever the first descendant `img` of a figure is filtered out by
`processImage`, `processFigure` returns the empty string — so any caption is
suppressed together with the image; the same holds for
`processCaptionedImageContainer` with any next sibling. -/
theorem c10_filtered_image_suppresses_caption (f : Node) (sib : Option Node) (img : Node)
    (h1 : elemBySel f imgSel = some img) (h2 : processImage img = []) :
    processFigure f = [] ∧ processCaptionedImageContainer f sib = [] := by
  constructor
  · simp [processFigure, h1, h2]
  · simp [processCaptionedImageContainer, h1, h2]

/-- C10, witness: the theorem applied to a figure holding a tracking image
and a `figcaption`. -/
theorem c10_witness :
    processFigure exTrackFig = [] ∧ processCaptionedImageContainer exTrackFig none = [] := by
  exact c10_filtered_image_suppresses_caption exTrackFig none
    (el "img" [("src", "https://cdn.example/tracking/open.gif")] []) rfl (by decide)

/-! ## Claim C9: graceful degradation -/

/-- C9: missing elements or attributes only omit or default the
corresponding fragment.  In this embedding every operation of the engine is
a total function, so no conversion can fail; this theorem records the
defaulting behaviour the claim names: a missing `src` yields an empty image
fragment, a figure or captioned container without an image yields nothing,
a missing title yields no title line, an author missing while a date is
present yields `**Author:** Unknown | **Date:** …`, and a missing `alt`
defaults to the empty alt text. -/
theorem c9_graceful_degradation :
    (∀ n : Node, getAttr n (str "src") = none → processImage n = []) ∧
    (∀ f : Node, elemBySel f imgSel = none → processFigure f = []) ∧
    (∀ c : Node, ∀ sib : Option Node, elemBySel c imgSel = none →
      processCaptionedImageContainer c sib = []) ∧
    (∀ doc : Node, elemBySel doc titleSel = none → titleFragment doc = []) ∧
    (∀ doc : Node, elemBySel doc authorSel = none → ∀ d, elemBySel doc timeSel = some d →
      authorDateFragment doc =
        str "**Author:** Unknown | **Date:** " ++ trimWs (textContent d) ++ str "\n\n") ∧
    (∀ n : Node, ∀ s : Str, getAttr n (str "alt") = none → getAttr n (str "src") = some s →
      processImage n = [] ∨
      processImage n = str "![](" ++ s ++ str ")" ∨
      ∃ t : Str, processImage n = str "![](" ++ s ++ str " \"" ++ t ++ str "\")") := by
  refine ⟨?_, ?_, ?_, ?_, ?_, ?_⟩
  · intro n h
    exact processImage_no_src n h
  · intro f h
    simp [processFigure, h]
  · intro c sib h
    simp [processCaptionedImageContainer, h]
  · intro doc h
    simp [titleFragment, h]
  · intro doc ha d hd
    simp only [authorDateFragment, ha, hd]
    rw [if_pos (by simp)]
    rfl
  · intro n s ha hs
    by_cases hg : s = [] ∨ hasSub s (str "tracking") = true ∨
        getAttr n (str "width") = some (str "1") ∨
        getAttr n (str "height") = some (str "1")
    · exact Or.inl (processImage_filtered n s hs hg)
    · have he := processImage_kept n s hs hg
      rw [ha] at he
      by_cases ht : (getAttr n (str "title")).getD [] = []
      · refine Or.inr (Or.inl ?_)
        rw [he, if_pos ht]
        rfl
      · refine Or.inr (Or.inr ⟨(getAttr n (str "title")).getD [], ?_⟩)
        rw [he, if_neg ht]
        rfl

/-- C9, witness: each degradation fact at a concrete input. -/
theorem c9_witness :
    processImage (el "img" [] []) = [] ∧
    processFigure (el "figure" [] [txt "no image"]) = [] ∧
    processCaptionedImageContainer (el "div" [] []) none = [] ∧
    titleFragment (el "html" [] []) = [] ∧
    authorDateFragment exDateOnlyDoc =
      str "**Author:** Unknown | **Date:** " ++ trimWs (str "2024-01-02") ++ str "\n\n" ∧
    processImage (el "img" [("src", "a.png")] []) = str "![](" ++ str "a.png" ++ str ")" := by
  refine ⟨?_, ?_, ?_, ?_, ?_, ?_⟩
  · exact c9_graceful_degradation.1 (el "img" [] []) (by decide)
  · exact c9_graceful_degradation.2.1 (el "figure" [] [txt "no image"]) rfl
  · exact c9_graceful_degradation.2.2.1 (el "div" [] []) none rfl
  · exact c9_graceful_degradation.2.2.2.1 (el "html" [] []) rfl
  · exact c9_graceful_degradation.2.2.2.2.1 exDateOnlyDoc rfl
      (el "time" [] [txt "2024-01-02"]) rfl
  · have h := c9_graceful_degradation.2.2.2.2.2 (el "img" [("src", "a.png")] [])
      (str "a.png") rfl rfl
    rcases h with h | h | ⟨t, h⟩
    · exact absurd h (by decide)
    · exact h
    · have hl := congrArg List.length h
      rw [show processImage (el "img" [("src", "a.png")] []) = str "![](a.png)" from rfl] at hl
      simp [str, List.length_append] at hl

/-! ## Claim C1: the no-duplication invariant -/

/-- Every non-empty list of paths has an element of minimal length. -/
theorem exists_mem_minLength (l : List (List Nat)) (h : l ≠ []) :
    ∃ a, a ∈ l ∧ ∀ b ∈ l, a.length ≤ b.length := by
  induction l with
  | nil => exact absurd rfl h
  | cons a rest ih =>
    rcases eq_or_ne rest [] with hr | hr
    · subst hr
      refine ⟨a, by simp, ?_⟩
      intro b hb
      rw [List.mem_singleton] at hb
      subst hb
      exact le_refl _
    · obtain ⟨m, hm, hmin⟩ := ih hr
      by_cases hle : a.length ≤ m.length
      · refine ⟨a, by simp, ?_⟩
        intro b hb
        rcases List.mem_cons.1 hb with rfl | hb
        · exact le_refl _
        · exact le_trans hle (hmin b hb)
      · refine ⟨m, by simp [hm], ?_⟩
        intro b hb
        rcases List.mem_cons.1 hb with rfl | hb
        · omega
        · exact hmin b hb

/-- The filter predicate of `extractContentInOrder`, propositionally. -/
theorem keepAt_iff (root : Node) (p : List Nat) :
    keepAt root p = true ↔
      ¬∃ q, q ∈ candPaths root ∧ (q <+: p ∧ q ≠ p) ∧ containerKindAt root q = true := by
  simp [keepAt, List.any_eq_true, strictPrefB]

/-- A strict prefix is strictly shorter. -/
theorem strict_prefix_length_lt {q p : List Nat} (hpre : q <+: p) (hne : q ≠ p) :
    q.length < p.length := by
  rcases lt_or_eq_of_le hpre.length_le with h | h
  · exact h
  · exact absurd (hpre.eq_of_length h) hne

/-- Membership in `selectedPaths`, unfolded. -/
theorem mem_selectedPaths (root : Node) (p : List Nat) :
    p ∈ selectedPaths root ↔ p ∈ candPaths root ∧ keepAt root p = true :=
  List.mem_filter

/-- A candidate is dropped by the filter exactly when a *selected* container
candidate strictly contains it: the outermost container candidate above a
dropped element always survives the filter itself. -/
theorem selected_iff_no_selected_container (root : Node) (p : List Nat)
    (hp : p ∈ candPaths root) :
    p ∈ selectedPaths root ↔
      ¬∃ q, q ∈ selectedPaths root ∧ q ≠ p ∧ q <+: p ∧ containerKindAt root q = true := by
  constructor
  · intro hps hex
    obtain ⟨q, hqsel, hne, hpre, hck⟩ := hex
    have hkeep := ((mem_selectedPaths root p).1 hps).2
    rw [keepAt_iff] at hkeep
    exact hkeep ⟨q, ((mem_selectedPaths root q).1 hqsel).1, ⟨hpre, hne⟩, hck⟩
  · intro hno
    rw [mem_selectedPaths]
    refine ⟨hp, ?_⟩
    rw [keepAt_iff]
    intro hex
    -- take a container strict ancestor of minimal length: it is selected
    have hTne : (candPaths root).filter
        (fun q => strictPrefB q p && containerKindAt root q) ≠ [] := by
      obtain ⟨q, hq1, hq2, hq3⟩ := hex
      intro hnil
      have : q ∈ (candPaths root).filter
          (fun q => strictPrefB q p && containerKindAt root q) := by
        rw [List.mem_filter]
        exact ⟨hq1, by simp [strictPrefB, hq2.1, hq2.2, hq3]⟩
      rw [hnil] at this
      exact absurd this (List.not_mem_nil q)
    obtain ⟨m, hmT, hmin⟩ := exists_mem_minLength _ hTne
    rw [List.mem_filter] at hmT
    obtain ⟨hmc, hmb⟩ := hmT
    have hmb' : (m <+: p ∧ m ≠ p) ∧ containerKindAt root m = true := by
      simpa [strictPrefB] using hmb
    have hmsel : m ∈ selectedPaths root := by
      rw [mem_selectedPaths]
      refine ⟨hmc, ?_⟩
      rw [keepAt_iff]
      intro hrex
      obtain ⟨r, hr1, hr2, hr3⟩ := hrex
      have hrp : (r <+: p ∧ r ≠ p) := by
        have hrlen := strict_prefix_length_lt hr2.1 hr2.2
        have hmlen := strict_prefix_length_lt hmb'.1.1 hmb'.1.2
        refine ⟨hr2.1.trans hmb'.1.1, ?_⟩
        intro hrp
        subst hrp
        omega
      have hrT : r ∈ (candPaths root).filter
          (fun q => strictPrefB q p && containerKindAt root q) := by
        rw [List.mem_filter]
        exact ⟨hr1, by simp [strictPrefB, hrp.1, hrp.2, hr3]⟩
      have := hmin r hrT
      have := strict_prefix_length_lt hr2.1 hr2.2
      omega
    exact hno ⟨m, hmsel, hmb'.1.2, hmb'.1.1, hmb'.2⟩

/-- The paths produced by `allPaths`/`pathsKids` are distinct, and the
child paths start with an index at least the starting index. -/
theorem allPaths_nodup (n : Node) : (allPaths n).Nodup := by
  induction n using Node.rec
    (motive_2 := fun cs => ∀ i : Nat, (pathsKids i cs).Nodup ∧
      ∀ p ∈ pathsKids i cs, ∃ j q, p = j :: q ∧ i ≤ j) with
  | text s => simp [allPaths]
  | elem t attrs cs ih =>
    simp only [allPaths, List.nodup_cons]
    refine ⟨?_, (ih 0).1⟩
    intro hmem
    obtain ⟨j, q, hq, -⟩ := (ih 0).2 [] hmem
    exact absurd hq (by simp)
  | nil =>
    exact ⟨List.nodup_nil, by intro p hp; exact absurd hp (List.not_mem_nil p)⟩
  | cons c rest ihc ihrest =>
    rename_i i
    constructor
    · refine List.Nodup.append ?_ (ihrest (i + 1)).1 ?_
      · exact (List.nodup_map_iff (List.cons_injective)).mpr ihc
      · intro p hp1 hp2
        obtain ⟨q, -, hq⟩ := List.mem_map.1 hp1
        obtain ⟨j, q', hq', hij⟩ := (ihrest (i + 1)).2 p hp2
        rw [← hq] at hq'
        injection hq' with h1 h2
        omega
    · intro p hp
      rcases List.mem_append.1 hp with hp | hp
      · obtain ⟨q, -, hq⟩ := List.mem_map.1 hp
        exact ⟨i, q, hq.symm, le_refl i⟩
      · obtain ⟨j, q, hq, hij⟩ := (ihrest (i + 1)).2 p hp
        exact ⟨j, q, hq, by omega⟩

/-- `selectedPaths` never repeats a path: each selected element is rendered
exactly once. -/
theorem selectedPaths_nodup (root : Node) : (selectedPaths root).Nodup :=
  (((allPaths_nodup root).filter _).filter _)

/-- On a valid path, the node at a proper prefix is among the ancestors. -/
theorem nodeAt_prefix_mem_ancestors :
    ∀ (q p : List Nat) (root n : Node), q <+: p → q ≠ p → nodeAt root p = some n →
      ∃ m, nodeAt root q = some m ∧ m ∈ ancestorsAt root p := by
  intro q
  induction q with
  | nil =>
    intro p root n hpre hne hval
    cases p with
    | nil => exact absurd rfl hne
    | cons i p' =>
      refine ⟨root, rfl, ?_⟩
      simp [ancestorsAt]
  | cons j q' ih =>
    intro p root n hpre hne hval
    obtain ⟨t, rfl⟩ := hpre
    cases hc : childAt root j with
    | none =>
      rw [show (j :: q') ++ t = j :: (q' ++ t) from rfl, nodeAt, hc] at hval
      exact absurd hval (by simp)
    | some c =>
      have hne' : q' ≠ q' ++ t := by
        intro hq
        apply hne
        simp only [List.cons_append]
        rw [← hq]
      rw [show (j :: q') ++ t = j :: (q' ++ t) from rfl, nodeAt, hc] at hval
      obtain ⟨m, hm1, hm2⟩ := ih (q' ++ t) c n (List.prefix_append q' t) hne' hval
      refine ⟨m, ?_, ?_⟩
      · simp [nodeAt, hc, hm1]
      · simp [List.cons_append, ancestorsAt, hc]
        exact Or.inr hm2

/-- The `p` arm skips the paragraph when `closest` finds a blockquote or a
footnote-class ancestor. -/
theorem renderElem_p_skip (n : Node) (selfUp : List Node) (sib : Option Node)
    (ht : tagOf n = str "p")
    (hcl : closestAny selfUp bqSimp = true ∨ closestAny selfUp fnSimp = true) :
    renderElem n selfUp sib = [] := by
  cases n with
  | text s =>
    simp only [tagOf] at ht
    exact absurd ht (by decide)
  | elem t attrs cs =>
    simp only [tagOf] at ht
    subst ht
    simp [renderElem, str_inj, hcl]

/-- C1: the no-duplication invariant of `extractContentInOrder`.  The
selected paths are pairwise distinct (each selected element is rendered
exactly once, `extractContentInOrder` being their one-pass concatenation);
a candidate is selected exactly when no *selected* candidate of container
kind (blockquote, `ul`, `ol`, footnote class, `figure`,
captioned-image-container class) strictly contains it; and a `p` with a
blockquote or footnote-class strict ancestor contributes no independent
paragraph block: its dispatch renders nothing. -/
theorem c1_no_duplication (root : Node) :
    (selectedPaths root).Nodup ∧
    (∀ p ∈ candPaths root,
      (p ∈ selectedPaths root ↔
        ¬∃ q, q ∈ selectedPaths root ∧ q ≠ p ∧ q <+: p ∧
          containerKindAt root q = true)) ∧
    (∀ p : List Nat, ∀ n : Node, nodeAt root p = some n → tagOf n = str "p" →
      (∃ q m, q <+: p ∧ q ≠ p ∧ nodeAt root q = some m ∧
        (tagOf m = str "blockquote" ∨ hasClass m (str "footnote") = true)) →
      renderBlockAt root p = []) := by
  refine ⟨selectedPaths_nodup root, ?_, ?_⟩
  · intro p hp
    exact selected_iff_no_selected_container root p hp
  · intro p n hnode ht hex
    obtain ⟨q, m, hpre, hne, hq, hm⟩ := hex
    obtain ⟨m2, hm1, hm2⟩ := nodeAt_prefix_mem_ancestors q p root n hpre hne hnode
    rw [hq] at hm1
    obtain rfl := Option.some_injective _ hm1
    rw [renderBlockAt, hnode]
    apply renderElem_p_skip _ _ _ ht
    rcases hm with hm | hm
    · left
      rw [closestAny, List.any_eq_true]
      refine ⟨m, ?_, ?_⟩
      · exact List.mem_cons_of_mem _ (List.mem_reverse.2 hm2)
      · simp [bqSimp, matchSimp, matchAtom, hm]
    · right
      rw [closestAny, List.any_eq_true]
      refine ⟨m, ?_, ?_⟩
      · exact List.mem_cons_of_mem _ (List.mem_reverse.2 hm2)
      · simp [fnSimp, matchSimp, matchAtom, hm]

/-- C1, witness: on a blockquote containing a paragraph, the selected paths
are distinct, the nested paragraph is not selected, and its dispatch emits
nothing. -/
theorem c1_witness :
    (selectedPaths exBqDoc).Nodup ∧
    ([0, 0] ∈ selectedPaths exBqDoc ↔
      ¬∃ q, q ∈ selectedPaths exBqDoc ∧ q ≠ [0, 0] ∧ q <+: [0, 0] ∧
        containerKindAt exBqDoc q = true) ∧
    renderBlockAt exBqDoc [0, 0] = [] := by
  refine ⟨(c1_no_duplication exBqDoc).1, ?_, ?_⟩
  · exact (c1_no_duplication exBqDoc).2.1 [0, 0] (by decide)
  · exact (c1_no_duplication exBqDoc).2.2 [0, 0] (el "p" [] [txt "q"]) rfl (by decide)
      ⟨[0], el "blockquote" [] [el "p" [] [txt "q"]], by decide, by decide, rfl,
        Or.inl rfl⟩

/-! ## Claim C3: `cleanMarkdown` and idempotence

`cleanMarkdown` is *not* idempotent (rule 5 deletes exactly one whitespace
character after a list bullet per application); the lemmas below show that
each rule either leaves its input unchanged or strictly shrinks it, so
iterating `cleanMarkdown` does reach a fixed point. -/

/-- Rule 1 either reproduces its pending run and input, or shrinks. -/
theorem r1go_eq_or_lt : ∀ (l : Str) (k : Nat),
    r1go k l = List.replicate k '\n' ++ l ∨ (r1go k l).length < k + l.length := by
  intro l
  induction l with
  | nil =>
    intro k
    by_cases hk : k ≤ 2
    · left
      simp [r1go, min_eq_left hk]
    · right
      simp only [r1go, List.length_replicate, List.length_nil]
      omega
  | cons c rest ih =>
    intro k
    by_cases hc : c = '\n'
    · subst hc
      simp only [r1go, if_pos rfl, eq_self_iff_true, if_true]
      rcases ih (k + 1) with h | h
      · left
        rw [h, List.replicate_succ']
        simp
      · right
        simp only [List.length_cons]
        omega
    · simp only [r1go, if_neg hc]
      rcases ih 0 with h | h
      · rw [List.replicate_zero, List.nil_append] at h
        rw [h]
        by_cases hk : k ≤ 2
        · left
          rw [min_eq_left hk]
        · right
          simp only [List.length_append, List.length_replicate, List.length_cons]
          omega
      · right
        simp only [List.length_append, List.length_replicate, List.length_cons,
          List.length_nil] at h ⊢
        omega

/-- Rule 2 either reproduces its pending run and input, or shrinks. -/
theorem r2go_eq_or_lt : ∀ (l pend : Str),
    r2go pend l = pend.reverse ++ l ∨ (r2go pend l).length < pend.length + l.length := by
  intro l
  induction l with
  | nil =>
    intro pend
    left
    simp [r2go]
  | cons c rest ih =>
    intro pend
    by_cases hw : isWs c = true
    · simp only [r2go, if_pos hw]
      rcases ih (c :: pend) with h | h
      · left
        rw [h]
        simp
      · right
        simp only [List.length_cons] at h ⊢
        omega
    · by_cases hp : isPunctC c = true
      · simp only [r2go, if_neg hw, if_pos hp]
        have hlen : (r2go [] rest).length ≤ rest.length := by
          rcases ih [] with h | h
          · rw [h]; simp
          · simp only [List.length_nil, Nat.zero_add] at h; omega
        rcases eq_or_ne pend [] with hpe | hpe
        · subst hpe
          rcases ih [] with h | h
          · left
            rw [h]
            simp
          · right
            simp only [List.length_cons, List.length_nil, Nat.zero_add] at h ⊢
            omega
        · right
          have hpl : 1 ≤ pend.length := List.length_pos.2 hpe
          simp only [List.length_cons]
          omega
      · simp only [r2go, if_neg hw, if_neg hp]
        rcases ih [] with h | h
        · left
          rw [h]
          simp
        · right
          simp only [List.length_append, List.length_reverse, List.length_cons,
            List.length_nil, Nat.zero_add] at h ⊢
          omega

/-- Rule 3 either reproduces its pending run and input, or shrinks. -/
theorem r3go_eq_or_lt : ∀ (l pend : Str),
    r3go pend l = pend.reverse ++ l ∨ (r3go pend l).length < pend.length + l.length := by
  intro l
  induction l with
  | nil =>
    intro pend
    rcases eq_or_ne pend [] with hpe | hpe
    · subst hpe
      left
      rfl
    · right
      have hpl : 1 ≤ pend.length := List.length_pos.2 hpe
      simp only [r3go, List.length_nil]
      omega
  | cons c rest ih =>
    intro pend
    by_cases hst : (c = ' ' || c = '\t') = true
    · simp only [r3go, if_pos hst]
      rcases ih (c :: pend) with h | h
      · left
        rw [h]
        simp
      · right
        simp only [List.length_cons] at h ⊢
        omega
    · by_cases hnl : c = '\n'
      · subst hnl
        simp only [r3go, if_neg hst, if_pos rfl, eq_self_iff_true, if_true]
        have hlen : (r3go [] rest).length ≤ rest.length := by
          rcases ih [] with h | h
          · rw [h]; simp
          · simp only [List.length_nil, Nat.zero_add] at h; omega
        rcases eq_or_ne pend [] with hpe | hpe
        · subst hpe
          rcases ih [] with h | h
          · left
            rw [h]
            simp
          · right
            simp only [List.length_cons, List.length_nil, Nat.zero_add] at h ⊢
            omega
        · right
          have hpl : 1 ≤ pend.length := List.length_pos.2 hpe
          simp only [List.length_cons]
          omega
      · simp only [r3go, if_neg hst, if_neg hnl]
        rcases ih [] with h | h
        · left
          rw [h]
          simp
        · right
          simp only [List.length_append, List.length_reverse, List.length_cons,
            List.length_nil, Nat.zero_add] at h ⊢
          omega

/-- `dropWhile` either keeps the list or shrinks it. -/
theorem dropWhile_eq_or_lt (p : Char → Bool) (l : Str) :
    l.dropWhile p = l ∨ (l.dropWhile p).length < l.length := by
  cases l with
  | nil => left; rfl
  | cons c rest =>
    by_cases hp : p c = true
    · right
      rw [List.dropWhile_cons, if_pos hp]
      have := (List.dropWhile_sublist (l := rest) p).length_le
      simp only [List.length_cons]
      omega
    · left
      rw [List.dropWhile_cons, if_neg hp]

/-- `trimWs` is the identity or strictly shrinks. -/
theorem trimWs_eq_or_lt (l : Str) : trimWs l = l ∨ (trimWs l).length < l.length := by
  unfold trimWs
  rcases dropWhile_eq_or_lt isWs l with h1 | h1
  · rw [h1]
    rcases dropWhile_eq_or_lt isWs l.reverse with h2 | h2
    · left
      rw [h2, List.reverse_reverse]
    · right
      simpa using h2
  · right
    have h2 := (List.dropWhile_sublist (l := (l.dropWhile isWs).reverse) isWs).length_le
    simp only [List.length_reverse] at h2 ⊢
    omega

/-- The head of a non-empty `dropWhile` fails the predicate. -/
theorem dropWhile_head_not (p : Char → Bool) :
    ∀ (l : Str) (x : Char) (tail : Str), l.dropWhile p = x :: tail → p x = false := by
  intro l
  induction l with
  | nil => intro x tail h; exact absurd h (by simp)
  | cons c rest ih =>
    intro x tail h
    rw [List.dropWhile_cons] at h
    by_cases hp : p c = true
    · rw [if_pos hp] at h
      exact ih x tail h
    · rw [if_neg hp] at h
      injection h with h1 h2
      subst h1
      exact Bool.eq_false_iff.mpr hp

/-- Rule 4 either reproduces its state and input, or shrinks. -/
theorem r4go_eq_or_lt : ∀ (l : Str),
    (∀ b : Bool, r4go none b l = l ∨ (r4go none b l).length < l.length) ∧
    (∀ (r : Str) (b : Bool), r4go (some r) b l = '>' :: r.reverse ++ l ∨
      (r4go (some r) b l).length < 1 + r.length + l.length) := by
  intro l
  induction l with
  | nil =>
    refine ⟨fun b => Or.inl rfl, fun r b => ?_⟩
    cases r with
    | nil => left; rfl
    | cons x xs =>
      right
      simp [r4go]
  | cons c rest ih =>
    obtain ⟨ihn, ihs⟩ := ih
    constructor
    · intro b
      cases b with
      | false =>
        simp only [r4go, Bool.false_and, Bool.false_eq_true, if_false]
        rcases ihn (decide (c = '\n')) with h | h
        · left; rw [h]
        · right; simp only [List.length_cons]; omega
      | true =>
        by_cases hc : c = '>'
        · subst hc
          simp only [r4go]
          rw [if_pos (by simp)]
          rcases ihs [] false with h | h
          · left; rw [h]; rfl
          · right
            simp only [List.length_cons, List.length_nil, Nat.zero_add] at h ⊢
            omega
        · simp only [r4go]
          rw [if_neg (by simp [hc])]
          rcases ihn (decide (c = '\n')) with h | h
          · left; rw [h]
          · right; simp only [List.length_cons]; omega
    · intro r b
      by_cases hw : isWs c = true
      · simp only [r4go, if_pos hw]
        rcases ihs (c :: r) false with h | h
        · left
          rw [h]
          simp
        · right
          simp only [List.length_cons, List.length_reverse] at h ⊢
          omega
      · simp only [r4go, if_neg hw]
        by_cases heq : (r.takeWhile (fun x => x != '\n')).length = r.length
        · rw [if_pos heq]
          rcases ihn (decide (c = '\n')) with h | h
          · left
            rw [h]
          · right
            simp only [List.length_cons, List.length_append, List.length_reverse] at h ⊢
            omega
        · rw [if_neg heq]
          have hlt : (r.takeWhile (fun x => x != '\n')).length < r.length :=
            lt_of_le_of_ne (List.takeWhile_sublist _).length_le heq
          have hsplit := List.takeWhile_append_dropWhile (fun x => x != '\n') r
          cases hd : r.dropWhile (fun x => x != '\n') with
          | nil =>
            rw [hd, List.append_nil] at hsplit
            rw [hsplit] at hlt
            exact absurd hlt (lt_irrefl _)
          | cons x tail2 =>
            have hx : x = '\n' := by
              have := dropWhile_head_not (fun y => y != '\n') r x tail2 hd
              simpa using this
            subst hx
            rw [hd] at hsplit
            have hrl : r.length =
                (r.takeWhile (fun x => x != '\n')).length + 1 + tail2.length := by
              conv_lhs => rw [← hsplit]
              simp only [List.length_append, List.length_cons]
              omega
            by_cases hcond :
                ((r.takeWhile (fun x => x != '\n')).isEmpty && decide (c = '>')) = true
            · rw [if_pos hcond]
              rw [Bool.and_eq_true] at hcond
              obtain ⟨hpe, hcgt⟩ := hcond
              have hpe2 : r.takeWhile (fun x => x != '\n') = [] := List.isEmpty_iff.1 hpe
              have hc2 : c = '>' := of_decide_eq_true hcgt
              subst hc2
              rcases ihs [] false with h | h
              · by_cases ht2 : tail2 = []
                · subst ht2
                  left
                  have hrev : r.reverse =
                      '\n' :: (r.takeWhile (fun x => x != '\n')).reverse := by
                    conv_lhs => rw [← hsplit]
                    rw [List.reverse_append]
                    simp
                  rw [h, hrev]
                  simp [hpe2]
                · right
                  rw [h]
                  have h1 : 1 ≤ tail2.length := List.length_pos.2 ht2
                  simp only [hpe2, List.reverse_nil, List.length_cons, List.length_append,
                    List.length_reverse, List.length_nil]
                  omega
              · right
                have h1 : (r4go (some []) false rest).length ≤ rest.length := by
                  simp only [List.length_nil, Nat.zero_add] at h
                  omega
                simp only [hpe2, List.reverse_nil, List.length_cons, List.length_append,
                  List.length_reverse, List.length_nil]
                omega
            · rw [if_neg hcond]
              rcases ihn (decide (c = '\n')) with h | h
              · by_cases ht2 : tail2 = []
                · subst ht2
                  left
                  have hrev : r.reverse =
                      '\n' :: (r.takeWhile (fun x => x != '\n')).reverse := by
                    conv_lhs => rw [← hsplit]
                    rw [List.reverse_append]
                    simp
                  rw [h, hrev]
                · right
                  rw [h]
                  have h1 : 1 ≤ tail2.length := List.length_pos.2 ht2
                  simp only [List.length_cons, List.length_append, List.length_reverse]
                  omega
              · right
                simp only [List.length_cons, List.length_append, List.length_reverse] at h ⊢
                omega

/-- Rule 5 either reproduces its state and input, or shrinks. -/
theorem r5go_eq_or_lt : ∀ (l : Str),
    (∀ b : Bool, r5go (.scan b) l = l ∨ (r5go (.scan b) l).length < l.length) ∧
    (∀ a : Str, r5go (.collA a) l = a.reverse ++ l ∨
      (r5go (.collA a) l).length < a.length + l.length) ∧
    (∀ (a : Str) (b : Char) (d : Str),
      r5go (.collD a b d) l = a.reverse ++ b :: d.reverse ++ l ∨
      (r5go (.collD a b d) l).length < a.length + 1 + d.length + l.length) := by
  intro l
  induction l with
  | nil =>
    refine ⟨fun b => Or.inl rfl, fun a => Or.inl (by simp [r5go]), fun a b d => ?_⟩
    by_cases hde : d.isEmpty = true
    · left
      have hd2 : d = [] := List.isEmpty_iff.1 hde
      subst hd2
      simp [r5go]
    · right
      have hd2 : d ≠ [] := fun h => hde (by simp [h])
      have h1 : 1 ≤ d.length := List.length_pos.2 hd2
      simp only [r5go, if_neg hde, List.length_append, List.length_reverse,
        List.length_cons, List.length_tail, List.length_nil]
      omega
  | cons c rest ih =>
    obtain ⟨ihs, iha, ihd⟩ := ih
    refine ⟨?_, ?_, ?_⟩
    · intro b
      cases b with
      | false =>
        simp only [r5go, Bool.false_and, Bool.false_eq_true, if_false]
        rcases ihs (decide (c = '\n')) with h | h
        · left; rw [h]
        · right; simp only [List.length_cons]; omega
      | true =>
        by_cases hw : isWs c = true
        · simp only [r5go, Bool.true_and, if_pos hw]
          rcases iha [c] with h | h
          · left; rw [h]; rfl
          · right
            simp only [List.length_cons, List.length_singleton, List.length_nil,
              Nat.zero_add] at h ⊢
            omega
        · by_cases hb : isBullet c = true
          · simp only [r5go, Bool.true_and, if_neg hw, if_pos hb]
            rcases ihd [] c [] with h | h
            · left; rw [h]; simp
            · right
              simp only [List.length_nil, List.length_cons, Nat.zero_add] at h ⊢
              omega
          · simp only [r5go, Bool.true_and, if_neg hw, if_neg hb]
            rcases ihs (decide (c = '\n')) with h | h
            · left; rw [h]
            · right; simp only [List.length_cons]; omega
    · intro a
      by_cases hw : isWs c = true
      · simp only [r5go, if_pos hw]
        rcases iha (c :: a) with h | h
        · left; rw [h]; simp
        · right; simp only [List.length_cons] at h ⊢; omega
      · by_cases hb : isBullet c = true
        · simp only [r5go, if_neg hw, if_pos hb]
          rcases ihd a c [] with h | h
          · left; rw [h]; simp
          · right
            simp only [List.length_nil, List.length_cons] at h ⊢
            omega
        · simp only [r5go, if_neg hw, if_neg hb]
          rcases ihs (decide (c = '\n')) with h | h
          · left; rw [h]
          · right
            simp only [List.length_append, List.length_reverse, List.length_cons] at h ⊢
            omega
    · intro a b d
      by_cases hw : isWs c = true
      · simp only [r5go, if_pos hw]
        rcases ihd a b (c :: d) with h | h
        · left; rw [h]; simp
        · right; simp only [List.length_cons] at h ⊢; omega
      · by_cases hde : d.isEmpty = true
        · have hd2 : d = [] := List.isEmpty_iff.1 hde
          subst hd2
          simp only [r5go, if_neg hw, if_pos hde]
          rcases ihs (decide (c = '\n')) with h | h
          · left; rw [h]; simp
          · right
            simp only [List.length_append, List.length_reverse, List.length_cons,
              List.length_nil] at h ⊢
            omega
        · simp only [r5go, if_neg hw, if_neg hde]
          right
          have hd2 : d ≠ [] := fun h => hde (by simp [h])
          have h1 : 1 ≤ d.length := List.length_pos.2 hd2
          simp only [List.length_append, List.length_reverse, List.length_cons,
            List.length_tail]
          split
          · rcases ihd [] c [] with h | h
            · rw [h]
              simp only [List.length_append, List.length_reverse, List.length_cons,
                List.length_nil, List.reverse_nil]
              omega
            · simp only [List.length_nil, Nat.zero_add] at h
              omega
          · rcases ihs (decide (c = '\n')) with h | h
            · rw [h]
              simp only [List.length_cons]
              omega
            · simp only [List.length_cons]
              omega

/-- A transform that is the identity or shrinks never grows. -/
theorem eol_length_le {x y : Str} (h : y = x ∨ y.length < x.length) :
    y.length ≤ x.length := by
  rcases h with h | h
  · rw [h]
  · omega

/-- Composing identity-or-shrinking transforms preserves the property. -/
theorem comp_eq_or_lt {f g : Str → Str}
    (hf : ∀ m, f m = m ∨ (f m).length < m.length)
    (hg : ∀ m, g m = m ∨ (g m).length < m.length) :
    ∀ m, f (g m) = m ∨ (f (g m)).length < m.length := by
  intro m
  rcases hg m with h | h
  · rw [h]
    exact hf m
  · right
    have := eol_length_le (hf (g m))
    omega

/-- `cleanMarkdown` is the identity or strictly shrinks its input. -/
theorem cleanMarkdown_eq_or_lt (m : Str) :
    cleanMarkdown m = m ∨ (cleanMarkdown m).length < m.length := by
  have h1 : ∀ x : Str, r1go 0 x = x ∨ (r1go 0 x).length < x.length := by
    intro x
    rcases r1go_eq_or_lt x 0 with h | h
    · left; simpa using h
    · right; simpa using h
  have h2 : ∀ x : Str, r2go [] x = x ∨ (r2go [] x).length < x.length := by
    intro x
    rcases r2go_eq_or_lt x [] with h | h
    · left; simpa using h
    · right; simpa using h
  have h3 : ∀ x : Str, r3go [] x = x ∨ (r3go [] x).length < x.length := by
    intro x
    rcases r3go_eq_or_lt x [] with h | h
    · left; simpa using h
    · right; simpa using h
  have h4 : ∀ x : Str, r4go none true x = x ∨ (r4go none true x).length < x.length :=
    fun x => (r4go_eq_or_lt x).1 true
  have h5 : ∀ x : Str,
      r5go (.scan true) x = x ∨ (r5go (.scan true) x).length < x.length :=
    fun x => (r5go_eq_or_lt x).1 true
  have hc :=
    comp_eq_or_lt trimWs_eq_or_lt
      (comp_eq_or_lt h5 (comp_eq_or_lt h4 (comp_eq_or_lt h3 (comp_eq_or_lt h2 h1))))
  exact hc m

/-- C3, counterexample: `cleanMarkdown` is not idempotent.  On `"-  x"` one
application gives `"- x"` (the bullet rule deletes exactly one space), and a
second application gives `"-x"`. -/
theorem c3_counterexample :
    cleanMarkdown (cleanMarkdown (str "-  x")) ≠ cleanMarkdown (str "-  x") ∧
    cleanMarkdown (str "-  x") = str "- x" ∧
    cleanMarkdown (str "- x") = str "-x" := by
  decide

/-- C3, amended: `clean(clean(x)) = clean(x)` fails in general, but every
application of `cleanMarkdown` either fixes its input or strictly shortens
it, so iterating `cleanMarkdown` reaches a fixed point after finitely many
steps: for every string `x` there is an `n` with
`clean(cleanⁿ(x)) = cleanⁿ(x)`. -/
theorem c3_amended_clean_stabilizes (x : Str) :
    ∃ n : Nat, cleanMarkdown (cleanMarkdown^[n] x) = cleanMarkdown^[n] x := by
  suffices H : ∀ (k : Nat) (y : Str), y.length ≤ k →
      ∃ n : Nat, cleanMarkdown (cleanMarkdown^[n] y) = cleanMarkdown^[n] y from
    H x.length x le_rfl
  intro k
  induction k with
  | zero =>
    intro y hy
    rcases cleanMarkdown_eq_or_lt y with h | h
    · exact ⟨0, h⟩
    · omega
  | succ k ih =>
    intro y hy
    rcases cleanMarkdown_eq_or_lt y with h | h
    · exact ⟨0, h⟩
    · obtain ⟨n, hn⟩ := ih (cleanMarkdown y) (by omega)
      refine ⟨n + 1, ?_⟩
      rw [Function.iterate_succ_apply]
      exact hn
